import Mathlib

/-!
A shallow embedding of the `myvcs` version-control engine (`src/code.py`).

The repository's on-disk state (the `.myvcs` directory plus the working
tree) is modelled as an explicit `RepoState` record.  Directories keyed by
file name (`objects/`, `commits/`, `branches/`) and the JSON mappings
(the staging index, a commit's file map) are modelled as association
lists `List (String × _)` with Python-`dict` semantics: lookup finds the
first matching key, update replaces in place, insertion appends.  File
contents are modelled as `String`s.  The SHA-1 digest is an arbitrary
pure function `hashFn : String → String` passed as a parameter: the code
treats the digest as an opaque function of the bytes and no property
verified here depends on the particular digest algorithm.

Python-level failures that the claims depend on are modelled explicitly:
`save_head` with an in-memory `head` of `None` raises `TypeError`
(`f.write(None)`) after `open(..., "w")` has already truncated the HEAD
file, and reading a missing commit file or copying a missing object file
raises a file-not-found error.  Operations that can fail this way return
an `OpResult` carrying the state reached at the point of the failure.
-/

namespace Myvcs

/-- Association-list lookup with Python `dict.get` semantics: the first
entry with the given key. -/
def alookup {α : Type} : List (String × α) → String → Option α
  | [], _ => none
  | (k', v') :: rest, k => if k' = k then some v' else alookup rest k

/-- Association-list upsert with Python `dict.__setitem__` semantics:
replace the value in place if the key is present, append otherwise. -/
def aupsert {α : Type} : List (String × α) → String → α → List (String × α)
  | [], k, v => [(k, v)]
  | (k', v') :: rest, k, v =>
    if k' = k then (k, v) :: rest else (k', v') :: aupsert rest k v

/-- The keys of an association list are pairwise distinct (true of every
Python `dict` and of every directory listing). -/
def keysNodup {α : Type} (l : List (String × α)) : Prop :=
  (l.map Prod.fst).Nodup

/-- A commit record, exactly the dictionary built by `Repository.commit`:
`{message, timestamp, files, parent}` where `files` maps working-tree
paths to content hashes and `parent` is an optional commit hash. -/
structure Commit where
  message : String
  timestamp : String
  files : List (String × String)
  parent : Option String
deriving DecidableEq, Repr

/-- The persistent state of a repository: the files under `.myvcs`
(HEAD, `branches/`, `commits/`, `objects/`, `index`) plus the regular
files of the working directory.  `headFile`/`indexFile` are `none` when
the corresponding file does not exist.  `worktree` holds the regular
files of the current directory (the `.myvcs` directory itself is not a
regular file and so never appears in it). -/
structure RepoState where
  headFile : Option String
  branches : List (String × String)
  commits : List (String × Commit)
  objects : List (String × String)
  indexFile : Option (List (String × String))
  worktree : List (String × String)
deriving DecidableEq, Repr

/-- A Python exception escaping an operation. -/
inductive VcsError where
  /-- `TypeError: write() argument must be str, not None`. -/
  | typeError
  /-- `FileNotFoundError` / missing object or commit file. -/
  | fileNotFound
deriving DecidableEq, Repr

/-- Outcome of one repository operation: the final state and the lines
printed, or a raised exception together with the state and output at the
point of the raise. -/
inductive OpResult where
  | ok (s : RepoState) (out : List String)
  | crash (s : RepoState) (out : List String) (e : VcsError)
deriving DecidableEq, Repr

/-- `Repository.load_head`: the HEAD file's content if it exists,
defaulting to `"master"`. -/
def load_head (s : RepoState) : String :=
  s.headFile.getD "master"

/-- `Repository.save_head`: `open(self.head_path, "w")` truncates the
HEAD file, then `f.write(self.head)` succeeds on a string and raises
`TypeError` when the in-memory head is `None`. -/
def save_head (s : RepoState) (head : Option String) : RepoState × Option VcsError :=
  match head with
  | some h => ({ s with headFile := some h }, none)
  | none => ({ s with headFile := some "" }, some .typeError)

/-- `Repository.get_current_commit`: the current branch file's content,
or `None` when that file does not exist. -/
def get_current_commit (s : RepoState) : Option String :=
  alookup s.branches (load_head s)

/-- `Repository.update_branch`: overwrite (or create) the current
branch's pointer file. -/
def update_branch (s : RepoState) (commit_hash : String) : RepoState :=
  { s with branches := aupsert s.branches (load_head s) commit_hash }

/-- `Repository.read_index`: the parsed index file, `{}` when absent. -/
def read_index (s : RepoState) : List (String × String) :=
  s.indexFile.getD []

/-- `Repository.write_index`: overwrite the index file entirely. -/
def write_index (s : RepoState) (index : List (String × String)) : RepoState :=
  { s with indexFile := some index }

/-- Python truthiness of an optional string (`if not commit_hash`):
`None` and the empty string are falsy. -/
def truthy : Option String → Bool
  | none => false
  | some h => h ≠ ""

/-! ### Canonical JSON serialization (`json.dumps(commit, sort_keys=True)`) -/

/-- Lower-case hexadecimal digit, as Python's `\uXXXX` escapes print it. -/
def hexDigit (n : Nat) : Char :=
  if n < 10 then Char.ofNat (48 + n) else Char.ofNat (87 + n)

/-- A `\uXXXX` escape for a code unit. -/
def uEscape (n : Nat) : String :=
  "\\u" ++ String.mk [hexDigit (n / 4096 % 16), hexDigit (n / 256 % 16),
                      hexDigit (n / 16 % 16), hexDigit (n % 16)]

/-- `json.dumps` escaping of one character with `ensure_ascii=True`:
printable ASCII other than quote and backslash passes through, the
standard short escapes are used for the usual control characters, and
everything else becomes `\uXXXX` (a surrogate pair beyond the BMP). -/
def escapeChar (ch : Char) : String :=
  if ch = '"' then "\\\""
  else if ch = '\\' then "\\\\"
  else if ch = '\n' then "\\n"
  else if ch = '\t' then "\\t"
  else if ch = '\r' then "\\r"
  else if ch = Char.ofNat 8 then "\\b"
  else if ch = Char.ofNat 12 then "\\f"
  else if 32 ≤ ch.toNat ∧ ch.toNat ≤ 126 then String.singleton ch
  else if ch.toNat < 65536 then uEscape ch.toNat
  else uEscape (55296 + (ch.toNat - 65536) / 1024) ++
       uEscape (56320 + (ch.toNat - 65536) % 1024)

/-- `json.dumps` escaping of a string's characters. -/
def jsonEscape (s : String) : String :=
  String.join (s.data.map escapeChar)

/-- A JSON string literal. -/
def jsonStr (s : String) : String :=
  "\"" ++ jsonEscape s ++ "\""

/-- A JSON string literal or `null` (for the `parent` field). -/
def jsonOptStr : Option String → String
  | none => "null"
  | some s => jsonStr s

/-- Comparison of association-list entries by key, the order in which
`sort_keys=True` emits a dictionary's entries. -/
def keyLe {α : Type} (a b : String × α) : Prop := a.1 ≤ b.1

instance {α : Type} : DecidableRel (keyLe (α := α)) :=
  fun a b => inferInstanceAs (Decidable (a.1 ≤ b.1))

instance {α : Type} : IsTotal (String × α) keyLe :=
  ⟨fun a b => le_total a.1 b.1⟩

instance {α : Type} : IsTrans (String × α) keyLe :=
  ⟨fun _ _ _ h1 h2 => le_trans h1 h2⟩

/-- Strict comparison by key; antisymmetric (vacuously), which is what
lets two sorted permutations with distinct keys be identified. -/
def keyLt {α : Type} (a b : String × α) : Prop := a.1 < b.1

instance {α : Type} : IsAntisymm (String × α) (keyLt (α := α)) :=
  ⟨fun _ _ h1 h2 => absurd (lt_trans h1 h2) (lt_irrefl _)⟩

/-- A dictionary's entries in sorted key order (`sorted(d.items())`, as
`json.dumps(..., sort_keys=True)` iterates them). -/
def sortKeys {α : Type} (l : List (String × α)) : List (String × α) :=
  List.insertionSort keyLe l

/-- The JSON text of a `files` mapping under `sort_keys=True`. -/
def jsonFiles (files : List (String × String)) : String :=
  "\x7b" ++ String.intercalate ", "
      ((sortKeys files).map (fun kv => jsonStr kv.1 ++ ": " ++ jsonStr kv.2)) ++
    "\x7d"

/-- `json.dumps(commit, sort_keys=True)` for the commit dictionary built
by `Repository.commit`: top-level keys in sorted order (`files`,
`message`, `parent`, `timestamp`), default separators. -/
def serializeCommit (c : Commit) : String :=
  "\x7b" ++ jsonStr "files" ++ ": " ++ jsonFiles c.files ++ ", " ++
    jsonStr "message" ++ ": " ++ jsonStr c.message ++ ", " ++
    jsonStr "parent" ++ ": " ++ jsonOptStr c.parent ++ ", " ++
    jsonStr "timestamp" ++ ": " ++ jsonStr c.timestamp ++ "\x7d"

/-! ### The repository operations -/

/-- The loop body of `Repository.add`, over the list of path arguments.
Returns the final index, the final object store, and the printed lines.
A path missing from the working tree is skipped with a warning;
otherwise the content is hashed, the index entry upserted, and the
object file written only when no object with that hash exists yet. -/
def addLoop (hashFn : String → String) (wt : List (String × String)) :
    List String → List (String × String) → List (String × String) →
      List (String × String) × List (String × String) × List String
  | [], index, objects => (index, objects, [])
  | f :: rest, index, objects =>
    match alookup wt f with
    | none =>
      let r := addLoop hashFn wt rest index objects
      (r.1, r.2.1, ("Warning: File '" ++ f ++ "' does not exist.") :: r.2.2)
    | some content =>
      let sha := hashFn content
      let objects' := if (alookup objects sha).isSome then objects
                      else (sha, content) :: objects
      let r := addLoop hashFn wt rest (aupsert index f sha) objects'
      (r.1, r.2.1, ("Added '" ++ f ++ "'") :: r.2.2)

/-- `Repository.add`: read the index once, process every path, write the
index back. -/
def add (hashFn : String → String) (s : RepoState) (files : List String) :
    RepoState × List String :=
  let r := addLoop hashFn s.worktree files (read_index s) s.objects
  ({ s with indexFile := some r.1, objects := r.2.1 }, r.2.2)

/-- `Repository.commit`: an empty index reports and changes nothing;
otherwise the commit record is built with `parent = get_current_commit`,
serialized canonically, hashed, stored under its hash (the stored file
holds the canonical JSON, so parsing it back yields the file map in
sorted key order), the current branch advanced and the index cleared.
`ts` is the `datetime.utcnow().isoformat()` string of this invocation. -/
def commit (hashFn : String → String) (s : RepoState) (message ts : String) :
    RepoState × List String :=
  let index := read_index s
  if index = [] then (s, ["Nothing to commit, staging area is empty."])
  else
    let c : Commit :=
      { message := message, timestamp := ts ++ "Z", files := index,
        parent := get_current_commit s }
    let commit_hash := hashFn (serializeCommit c)
    let stored : Commit := { c with files := sortKeys c.files }
    let s1 := { s with commits := aupsert s.commits commit_hash stored }
    let s2 := update_branch s1 commit_hash
    let s3 := write_index s2 []
    (s3, ["Committed to " ++ load_head s ++ ": " ++
            commit_hash.take 7 ++ " - " ++ message])

/-! ### The `log` walk -/

/-- The `while commit_hash:` loop of `Repository.log`, with explicit
fuel.  The cursor starts at the current commit hash; a falsy cursor
(`None` or `""`) ends the loop, a cursor whose commit file is missing
breaks out of it, otherwise the commit is visited and the cursor moves
to its `parent`.  `some (visited, final)` means the loop stopped within
the fuel, returning the visited hashes in order and the final cursor;
`none` means the fuel was exhausted with the loop still running. -/
def walkFuel (commits : List (String × Commit)) :
    Nat → Option String → Option (List String × Option String)
  | 0, cur =>
    match cur with
    | none => some ([], none)
    | some h =>
      if h = "" then some ([], some h)
      else match alookup commits h with
        | none => some ([], some h)
        | some _ => none
  | n + 1, cur =>
    match cur with
    | none => some ([], none)
    | some h =>
      if h = "" then some ([], some h)
      else match alookup commits h with
        | none => some ([], some h)
        | some c => (walkFuel commits n c.parent).map (fun r => (h :: r.1, r.2))

/-- The walk from a cursor terminates: some finite fuel suffices. -/
def logTerminates (commits : List (String × Commit)) (cur : Option String) : Prop :=
  ∃ n r, walkFuel commits n cur = some r

/-- Where the loop may stop: a falsy cursor (absent parent), or a hash
whose commit record is missing from the store. -/
def walkStopped (commits : List (String × Commit)) : Option String → Prop
  | none => True
  | some h => h = "" ∨ alookup commits h = none

/-- `visited` is the parent chain followed from `cur` down to `fin`:
each visited hash is looked up in the store and the cursor moves to the
record's parent. -/
def chainOk (commits : List (String × Commit)) :
    Option String → List String → Option String → Prop
  | cur, [], fin => cur = fin
  | cur, h :: rest, fin =>
    cur = some h ∧ ∃ c, alookup commits h = some c ∧ chainOk commits c.parent rest fin

/-- A ranking certificate for a commit store: every stored commit's
parent hash ranks strictly below the commit's own hash.  Any store built
by `Repository.commit` alone (absent hash collisions) admits one, with
the rank of a commit its height in history. -/
def rankOk (commits : List (String × Commit)) (r : String → Nat) : Bool :=
  commits.all (fun hc =>
    match hc.2.parent with
    | some p => decide (r p < r hc.1)
    | none => true)

/-! ### `status`, `checkout`, `branch` -/

/-- The comparison baseline of `Repository.status`: the last commit's
file map, the empty map when the current branch has no (truthy) commit,
and `none` (a `FileNotFoundError` reading the commit file) when the
branch points at a hash missing from the store. -/
def last_files_of (s : RepoState) : Option (List (String × String)) :=
  match get_current_commit s with
  | none => some []
  | some h =>
    if h = "" then some []
    else (alookup s.commits h).map Commit.files

/-- The working-tree files `Repository.status` reports as modified: the
regular files of the current directory, excluding names that start with
`.myvcs`, whose current content hash differs from the baseline's
recorded hash for that path (a path absent from the baseline always
differs). -/
def modifiedFiles (hashFn : String → String)
    (wt lastFiles : List (String × String)) : List String :=
  (wt.filter (fun fc =>
      (!fc.1.startsWith ".myvcs") &&
        decide (some (hashFn fc.2) ≠ alookup lastFiles fc.1))).map Prod.fst

/-- The "Changes since last commit:" block of `Repository.status`. -/
def statusChanges (hashFn : String → String)
    (wt lastFiles : List (String × String)) : List String :=
  let mods := modifiedFiles hashFn wt lastFiles
  "Changes since last commit:" ::
    (if mods = [] then ["  no changes"]
     else mods.map (fun f => "  modified: " ++ f))

/-- `Repository.status`: print the staged paths, then the files modified
relative to the last commit's file map. -/
def status (hashFn : String → String) (s : RepoState) : OpResult :=
  let stagedOut := "Staged files:" :: ((read_index s).map (fun e => "  " ++ e.1) ++ [""])
  match last_files_of s with
  | none => .crash s stagedOut .fileNotFound
  | some lf => .ok s (stagedOut ++ statusChanges hashFn s.worktree lf)

/-- The restore loop of `Repository.checkout`: copy each `(path, hash)`
of the file map from the object store over the working tree, overwriting
existing files; a missing object raises (files copied so far kept). -/
def restoreFiles (objects : List (String × String)) :
    List (String × String) → List (String × String) →
      List (String × String) × Bool
  | [], wt => (wt, true)
  | (f, sha) :: rest, wt =>
    match alookup objects sha with
    | none => (wt, false)
    | some content => restoreFiles objects rest (aupsert wt f content)

/-- The tail of `Repository.checkout` once a commit hash is resolved:
read the commit record (raising if its file is missing) and restore its
file map into the working tree. -/
def checkoutRestore (s : RepoState) (out : List String) (commit_hash : String) :
    OpResult :=
  match alookup s.commits commit_hash with
  | none => .crash s out .fileNotFound
  | some c =>
    let r := restoreFiles s.objects c.files s.worktree
    if r.2 then
      .ok { s with worktree := r.1 }
        (out ++ ["Checked out files from commit " ++ commit_hash.take 7])
    else .crash { s with worktree := r.1 } out .fileNotFound

/-- `Repository.checkout`: an existing branch attaches HEAD to it and
restores its commit; otherwise an existing commit hash prints the
detached-HEAD message and then calls `save_head` with the in-memory head
set to `None`, which raises `TypeError` (`f.write(None)`) after the HEAD
file was truncated; otherwise the unknown-target error is printed and
nothing changes. -/
def checkout (s : RepoState) (target : String) : OpResult :=
  match alookup s.branches target with
  | some bh =>
    let r := save_head s (some target)
    let out1 := ["Switched to branch '" ++ target ++ "'"]
    if bh = "" then .ok r.1 (out1 ++ ["error: commit not found"])
    else checkoutRestore r.1 out1 bh
  | none =>
    match alookup s.commits target with
    | some _ =>
      let out1 := ["Checked out commit " ++ target.take 7 ++ " (detached HEAD)"]
      let r := save_head s none
      match r.2 with
      | some e => .crash r.1 out1 e
      | none => checkoutRestore r.1 out1 target
    | none => .ok s ["error: unknown branch or commit '" ++ target ++ "'"]

/-- `Repository.branch`: an existing name reports and changes nothing; a
falsy current commit reports and changes nothing; otherwise the new
branch pointer file is written at the current commit. -/
def branch (s : RepoState) (name : String) : RepoState × List String :=
  match alookup s.branches name with
  | some _ => (s, ["Branch '" ++ name ++ "' already exists."])
  | none =>
    match get_current_commit s with
    | none => (s, ["No commits to branch from."])
    | some h =>
      if h = "" then (s, ["No commits to branch from."])
      else ({ s with branches := aupsert s.branches name h },
            ["Created branch '" ++ name ++ "' at " ++ h.take 7])

/-! ### The object-coverage invariant -/

/-- An object with this hash exists in the object store. -/
def objHas (objects : List (String × String)) (h : String) : Prop :=
  (alookup objects h).isSome = true

/-- Every hash recorded in a file map has a stored object. -/
def coversFiles (objects files : List (String × String)) : Prop :=
  ∀ e ∈ files, objHas objects e.2

/-- The repository invariant behind `checkout`'s unconditional copies:
every hash in the staging index, and every hash in any committed file
map, has a corresponding object in the object store. -/
def Inv (s : RepoState) : Prop :=
  coversFiles s.objects (read_index s) ∧
    ∀ e ∈ s.commits, coversFiles s.objects e.2.files

instance {α : Type} (l : List (String × α)) : Decidable (keysNodup l) :=
  inferInstanceAs (Decidable ((l.map Prod.fst).Nodup))

instance (objects : List (String × String)) (h : String) : Decidable (objHas objects h) :=
  inferInstanceAs (Decidable (_ = true))

instance (objects files : List (String × String)) : Decidable (coversFiles objects files) :=
  inferInstanceAs (Decidable (∀ e ∈ files, objHas objects e.2))

instance (s : RepoState) : Decidable (Inv s) :=
  inferInstanceAs (Decidable (_ ∧ _))

/-! ### Association-list lemmas -/

theorem alookup_aupsert_self {α : Type} (l : List (String × α)) (k : String) (v : α) :
    alookup (aupsert l k v) k = some v := by
  induction l with
  | nil => simp [alookup, aupsert]
  | cons e rest ih =>
    by_cases h : e.1 = k
    · simp [alookup, aupsert, h]
    · simp [alookup, aupsert, h, ih]

theorem alookup_aupsert_ne {α : Type} (l : List (String × α)) (k k' : String) (v : α)
    (h : k ≠ k') : alookup (aupsert l k v) k' = alookup l k' := by
  induction l with
  | nil => simp [alookup, aupsert, h]
  | cons e rest ih =>
    by_cases he : e.1 = k
    · simp [alookup, aupsert, he, h]
    · simp only [aupsert, if_neg he, alookup]
      by_cases he' : e.1 = k'
      · simp [he']
      · simp [he', ih]

theorem aupsert_of_alookup_eq {α : Type} (l : List (String × α)) (k : String) (v : α)
    (h : alookup l k = some v) : aupsert l k v = l := by
  induction l with
  | nil => simp [alookup] at h
  | cons e rest ih =>
    obtain ⟨k1, v1⟩ := e
    by_cases he : k1 = k
    · subst he
      simp only [alookup, if_pos rfl] at h
      injection h with h
      simp [aupsert, h]
    · simp only [alookup, if_neg he] at h
      simp [aupsert, he, ih h]

theorem mem_aupsert {α : Type} {l : List (String × α)} {k : String} {v : α} {e : String × α}
    (h : e ∈ aupsert l k v) : e = (k, v) ∨ e ∈ l := by
  induction l with
  | nil => simpa [aupsert] using h
  | cons e' rest ih =>
    by_cases he : e'.1 = k
    · simp only [aupsert, if_pos he, List.mem_cons] at h
      rcases h with h | h
      · exact .inl h
      · exact .inr (List.mem_cons_of_mem _ h)
    · simp only [aupsert, if_neg he, List.mem_cons] at h
      rcases h with h | h
      · exact .inr (h ▸ List.mem_cons_self _ _)
      · rcases ih h with h' | h'
        · exact .inl h'
        · exact .inr (List.mem_cons_of_mem _ h')

theorem alookup_mem {α : Type} {l : List (String × α)} {k : String} {v : α}
    (h : alookup l k = some v) : (k, v) ∈ l := by
  induction l with
  | nil => simp [alookup] at h
  | cons e rest ih =>
    obtain ⟨k1, v1⟩ := e
    by_cases he : k1 = k
    · subst he
      simp only [alookup, if_pos rfl] at h
      injection h with h
      simp [h]
    · simp only [alookup, if_neg he] at h
      exact List.mem_cons_of_mem _ (ih h)

theorem alookup_isSome_of_mem {α : Type} {l : List (String × α)} {k : String} {v : α}
    (h : (k, v) ∈ l) : (alookup l k).isSome = true := by
  induction l with
  | nil => simp at h
  | cons e rest ih =>
    rcases List.mem_cons.1 h with h' | h'
    · simp [alookup, ← h']
    · by_cases he : e.1 = k
      · simp [alookup, he]
      · simp [alookup, he, ih h']

theorem keysNodup_unique {α : Type} {l : List (String × α)} {k : String} {v1 v2 : α}
    (hnd : keysNodup l) (h1 : (k, v1) ∈ l) (h2 : (k, v2) ∈ l) : v1 = v2 := by
  induction l with
  | nil => simp at h1
  | cons e rest ih =>
    have hnd' : keysNodup rest := (List.nodup_cons.1 hnd).2
    have hk : e.1 ∉ rest.map Prod.fst := (List.nodup_cons.1 hnd).1
    rcases List.mem_cons.1 h1 with h1' | h1' <;> rcases List.mem_cons.1 h2 with h2' | h2'
    · rw [← h1'] at h2'
      injection h2' with _ h'
      exact h'.symm
    · exfalso
      exact hk (by simpa [← h1'] using List.mem_map_of_mem Prod.fst h2')
    · exfalso
      exact hk (by simpa [← h2'] using List.mem_map_of_mem Prod.fst h1')
    · exact ih hnd' h1' h2'

theorem alookup_eq_some_of_mem {α : Type} {l : List (String × α)} {k : String} {v : α}
    (hnd : keysNodup l) (h : (k, v) ∈ l) : alookup l k = some v := by
  rcases Option.isSome_iff_exists.1 (alookup_isSome_of_mem h) with ⟨v', hv'⟩
  rw [hv', keysNodup_unique hnd (alookup_mem hv') h]

theorem alookup_none_keys {α : Type} {l : List (String × α)} {k : String}
    (h : alookup l k = none) : k ∉ l.map Prod.fst := by
  induction l with
  | nil => simp
  | cons e rest ih =>
    obtain ⟨k1, v1⟩ := e
    by_cases he : k1 = k
    · simp [alookup, he] at h
    · simp only [alookup, if_neg he] at h
      simp only [List.map_cons, List.mem_cons, not_or]
      exact ⟨fun hh => he hh.symm, ih h⟩

/-! ### Sorting lemmas -/

theorem sortKeys_perm {α : Type} (l : List (String × α)) : (sortKeys l).Perm l :=
  List.perm_insertionSort keyLe l

theorem sortKeys_sorted {α : Type} (l : List (String × α)) :
    List.Sorted keyLe (sortKeys l) :=
  List.sorted_insertionSort keyLe l

theorem sortKeys_idem {α : Type} (l : List (String × α)) :
    sortKeys (sortKeys l) = sortKeys l :=
  List.Sorted.insertionSort_eq (sortKeys_sorted l)

theorem sorted_keyLt_of_keysNodup {α : Type} {l : List (String × α)}
    (hs : List.Sorted keyLe l) (hnd : keysNodup l) : List.Sorted keyLt l := by
  have hne : l.Pairwise (fun a b : String × α => a.1 ≠ b.1) :=
    (List.pairwise_map.1 hnd)
  exact (hs.and hne).imp (fun h => lt_of_le_of_ne h.1 h.2)

theorem keysNodup_of_perm {α : Type} {l1 l2 : List (String × α)}
    (hp : l1.Perm l2) (hnd : keysNodup l1) : keysNodup l2 :=
  ((hp.map Prod.fst).nodup_iff).1 hnd

theorem sortKeys_eq_of_perm {α : Type} {l1 l2 : List (String × α)}
    (hp : l1.Perm l2) (hnd : keysNodup l1) : sortKeys l1 = sortKeys l2 := by
  have hperm : (sortKeys l1).Perm (sortKeys l2) :=
    ((sortKeys_perm l1).trans hp).trans (sortKeys_perm l2).symm
  have hnd1 : keysNodup (sortKeys l1) := keysNodup_of_perm (sortKeys_perm l1).symm hnd
  have hnd2 : keysNodup (sortKeys l2) :=
    keysNodup_of_perm ((sortKeys_perm l2).symm) (keysNodup_of_perm hp hnd)
  exact List.eq_of_perm_of_sorted hperm
    (sorted_keyLt_of_keysNodup (sortKeys_sorted l1) hnd1)
    (sorted_keyLt_of_keysNodup (sortKeys_sorted l2) hnd2)

/-! ### Walk lemmas -/

theorem rankOk_spec {commits : List (String × Commit)} {r : String → Nat}
    (hr : rankOk commits r = true) {h : String} {c : Commit}
    (hl : alookup commits h = some c) {p : String} (hp : c.parent = some p) :
    r p < r h := by
  have hmem : (h, c) ∈ commits := alookup_mem hl
  have := List.all_eq_true.1 hr (h, c) hmem
  rw [hp] at this
  exact of_decide_eq_true this

theorem walkFuel_total (commits : List (String × Commit)) (r : String → Nat)
    (hr : rankOk commits r = true) :
    ∀ k cur, (∀ h, cur = some h → h ≠ "" → (alookup commits h).isSome = true → r h < k) →
      ∃ vs fin, walkFuel commits k cur = some (vs, fin) ∧ walkStopped commits fin ∧
        chainOk commits cur vs fin := by
  intro k
  induction k with
  | zero =>
    intro cur hb
    cases cur with
    | none => exact ⟨[], none, rfl, trivial, rfl⟩
    | some h =>
      by_cases hh : h = ""
      · subst hh
        exact ⟨[], some "", by simp [walkFuel], Or.inl rfl, rfl⟩
      · cases hl : alookup commits h with
        | none => exact ⟨[], some h, by simp [walkFuel, hh, hl], Or.inr hl, rfl⟩
        | some c => exact absurd (hb h rfl hh (by simp [hl])) (Nat.not_lt_zero _)
  | succ k ih =>
    intro cur hb
    cases cur with
    | none => exact ⟨[], none, rfl, trivial, rfl⟩
    | some h =>
      by_cases hh : h = ""
      · subst hh
        exact ⟨[], some "", by simp [walkFuel], Or.inl rfl, rfl⟩
      · cases hl : alookup commits h with
        | none => exact ⟨[], some h, by simp [walkFuel, hh, hl], Or.inr hl, rfl⟩
        | some c =>
          have hrh : r h < k + 1 := hb h rfl hh (by simp [hl])
          have hb' : ∀ p, c.parent = some p → p ≠ "" →
              (alookup commits p).isSome = true → r p < k := by
            intro p hp _ _
            exact lt_of_lt_of_le (rankOk_spec hr hl hp) (Nat.lt_succ_iff.1 hrh)
          obtain ⟨vs, fin, hw, hstop, hchain⟩ := ih c.parent hb'
          exact ⟨h :: vs, fin, by simp [walkFuel, hh, hl, hw], hstop, rfl, c, hl, hchain⟩

/-! ### Invariant lemmas -/

theorem objHas_cons {objects : List (String × String)} {h : String} (k v : String)
    (hh : objHas objects h) : objHas ((k, v) :: objects) h := by
  by_cases hk : k = h
  · simp [objHas, alookup, hk]
  · simpa [objHas, alookup, hk] using hh

theorem addLoop_inv (hashFn : String → String) (wt : List (String × String)) :
    ∀ files idx objs, coversFiles objs idx →
      coversFiles (addLoop hashFn wt files idx objs).2.1
          (addLoop hashFn wt files idx objs).1 ∧
        (∀ h, objHas objs h → objHas (addLoop hashFn wt files idx objs).2.1 h) := by
  intro files
  induction files with
  | nil =>
    intro idx objs hcov
    exact ⟨hcov, fun _ hh => hh⟩
  | cons f rest ih =>
    intro idx objs hcov
    cases hwf : alookup wt f with
    | none =>
      have hrec := ih idx objs hcov
      exact ⟨by simpa [addLoop, hwf] using hrec.1,
             fun h hh => by simpa [addLoop, hwf] using hrec.2 h hh⟩
    | some content =>
      have hoMono : ∀ h, objHas objs h →
          objHas (if (alookup objs (hashFn content)).isSome then objs
                  else (hashFn content, content) :: objs) h := by
        intro h hh
        by_cases hpres : (alookup objs (hashFn content)).isSome = true
        · rw [if_pos hpres]
          exact hh
        · rw [if_neg hpres]
          exact objHas_cons _ _ hh
      have hoSelf : objHas (if (alookup objs (hashFn content)).isSome then objs
          else (hashFn content, content) :: objs) (hashFn content) := by
        by_cases hpres : (alookup objs (hashFn content)).isSome = true
        · rw [if_pos hpres]
          exact hpres
        · rw [if_neg hpres]
          simp [objHas, alookup]
      have hcov' : coversFiles
          (if (alookup objs (hashFn content)).isSome then objs
           else (hashFn content, content) :: objs) (aupsert idx f (hashFn content)) := by
        intro e he
        rcases mem_aupsert he with he' | he'
        · rw [he']
          exact hoSelf
        · exact hoMono _ (hcov e he')
      have hrec := ih (aupsert idx f (hashFn content)) _ hcov'
      exact ⟨by simpa [addLoop, hwf] using hrec.1,
             fun h hh => by simpa [addLoop, hwf] using hrec.2 h (hoMono h hh)⟩

theorem restoreFiles_ok (objects : List (String × String)) :
    ∀ files wt, coversFiles objects files → (restoreFiles objects files wt).2 = true := by
  intro files
  induction files with
  | nil => intro wt _; rfl
  | cons e rest ih =>
    intro wt hcov
    obtain ⟨f, sha⟩ := e
    have hself : objHas objects sha := hcov (f, sha) (List.mem_cons_self _ _)
    rcases Option.isSome_iff_exists.1 hself with ⟨content, hc⟩
    simpa [restoreFiles, hc] using
      ih (aupsert wt f content) (fun e he => hcov e (List.mem_cons_of_mem _ he))

/-- Canonical serialization ignores the in-memory ordering of the file
map: logically identical records serialize identically. -/
theorem serializeCommit_eq_of_perm {c1 c2 : Commit}
    (hm : c1.message = c2.message) (ht : c1.timestamp = c2.timestamp)
    (hp : c1.parent = c2.parent) (hf : c1.files.Perm c2.files)
    (hnd : keysNodup c1.files) : serializeCommit c1 = serializeCommit c2 := by
  unfold serializeCommit jsonFiles
  rw [hm, ht, hp, sortKeys_eq_of_perm hf hnd]

/-- Serializing a record whose file map is already canonically sorted
(the form read back from a stored commit file) gives the same text as
serializing the original record. -/
theorem serializeCommit_sortKeys (c : Commit) :
    serializeCommit { c with files := sortKeys c.files } = serializeCommit c := by
  unfold serializeCommit jsonFiles
  rw [sortKeys_idem]

/-- Full characterization of `commit` on a non-empty index: the new
record (file map canonically sorted, as the stored JSON file yields it)
is stored under the hash of the canonical serialization, the current
branch pointer is advanced to that hash, the index file is cleared, and
the report carries the short hash and the message. -/
theorem commit_eq (hashFn : String → String) (s : RepoState) (msg ts : String)
    (hne : read_index s ≠ []) :
    commit hashFn s msg ts =
      (RepoState.mk s.headFile
        (aupsert s.branches (load_head s)
          (hashFn (serializeCommit
            { message := msg, timestamp := ts ++ "Z", files := read_index s,
              parent := get_current_commit s })))
        (aupsert s.commits
          (hashFn (serializeCommit
            { message := msg, timestamp := ts ++ "Z", files := read_index s,
              parent := get_current_commit s }))
          { message := msg, timestamp := ts ++ "Z",
            files := sortKeys (read_index s), parent := get_current_commit s })
        s.objects (some []) s.worktree,
       ["Committed to " ++ load_head s ++ ": " ++
          (hashFn (serializeCommit
            { message := msg, timestamp := ts ++ "Z", files := read_index s,
              parent := get_current_commit s })).take 7 ++ " - " ++ msg]) := by
  simp only [commit, update_branch, write_index, load_head]
  rw [if_neg hne]

/-- Adding a single file whose index entry and object are already in
place changes nothing (the index file must already exist, since `add`
always writes it). -/
theorem add_single_stable (hashFn : String → String) (s : RepoState) (f content : String)
    (hw : alookup s.worktree f = some content)
    (hidx : alookup (read_index s) f = some (hashFn content))
    (hobj : (alookup s.objects (hashFn content)).isSome = true)
    (hix : s.indexFile = some (read_index s)) :
    (add hashFn s [f]).1 = s := by
  simp only [add, addLoop, hw, hobj, if_true]
  rw [aupsert_of_alookup_eq _ _ _ hidx, ← hix]

/-! ### Concrete repositories used to instantiate the theorems -/

/-- A small concrete repository: one commit `h1` on `master` holding
file `f` with object `o1`, an empty staging index, a clean working
tree. -/
def demoRepo : RepoState :=
  { headFile := some "master"
    branches := [("master", "h1")]
    commits := [("h1", { message := "first", timestamp := "t1Z",
                         files := [("f", "o1")], parent := none })]
    objects := [("o1", "hello")]
    indexFile := some []
    worktree := [("f", "hello")] }

/-- A freshly initialized repository: no branches, no commits, no index
file, one file in the working tree. -/
def demoEmpty : RepoState :=
  { headFile := some "master"
    branches := []
    commits := []
    objects := []
    indexFile := none
    worktree := [("f", "hello")] }

/-- A repository with one commit on `master` and a staged change to
file `f` (content `world`, recorded under the identity hash). -/
def demoStaged : RepoState :=
  { headFile := some "master"
    branches := [("master", "h1")]
    commits := [("h1", { message := "first", timestamp := "t1Z",
                         files := [("f", "o1")], parent := none })]
    objects := [("o1", "hello"), ("world", "world")]
    indexFile := some [("f", "world")]
    worktree := [("f", "world")] }

/-- A repository whose working tree holds the same content at two
paths, with an existing (empty) index file. -/
def demoTwin : RepoState :=
  { headFile := some "master"
    branches := []
    commits := []
    objects := []
    indexFile := some []
    worktree := [("a", "same"), ("b", "same")] }

/-! ### The claims -/

/-- C1: the spec says that for a target that is not a branch but is an
existing commit hash, `checkout` detaches HEAD at that commit and
restores every file of its file map.  The code cannot do this: on that
path it sets the in-memory head to `None` and calls `save_head`, whose
`f.write(self.head)` raises `TypeError` for `None` — after `open(.., "w")`
has truncated the HEAD file — so the operation crashes having restored
nothing and having emptied the HEAD file. -/
theorem checkout_commit_hash_crashes (s : RepoState) (target : String)
    (hb : alookup s.branches target = none)
    (hc : (alookup s.commits target).isSome = true) :
    checkout s target =
      .crash { s with headFile := some "" }
        ["Checked out commit " ++ target.take 7 ++ " (detached HEAD)"] .typeError := by
  rcases Option.isSome_iff_exists.1 hc with ⟨c, hcc⟩
  simp [checkout, hb, hcc, save_head]

/-- Witness for C1 at a concrete repository: checking out the commit
hash `h1` (not a branch name) crashes with `TypeError` and changes
nothing but the truncated HEAD file. -/
theorem checkout_commit_hash_crashes_witness :
    alookup demoRepo.branches "h1" = none ∧
    (alookup demoRepo.commits "h1").isSome = true ∧
    checkout demoRepo "h1" =
      .crash { demoRepo with headFile := some "" }
        ["Checked out commit " ++ "h1".take 7 ++ " (detached HEAD)"] .typeError :=
  ⟨by decide, by decide,
   checkout_commit_hash_crashes demoRepo "h1" (by decide) (by decide)⟩

/-- C2: `commit` on an empty staging index only reports "nothing to
commit": it creates no commit record, advances no branch, and leaves the
whole repository state (the index included) unchanged. -/
theorem commit_empty_index_noop (hashFn : String → String) (s : RepoState)
    (msg ts : String) (h : read_index s = []) :
    commit hashFn s msg ts = (s, ["Nothing to commit, staging area is empty."]) := by
  simp [commit, h]

/-- Witness for C2 at a concrete repository with an empty index. -/
theorem commit_empty_index_noop_witness :
    read_index demoRepo = [] ∧
    commit (fun b => b) demoRepo "m" "2024-01-01T00:00:00" =
      (demoRepo, ["Nothing to commit, staging area is empty."]) :=
  ⟨rfl, commit_empty_index_noop (fun b => b) demoRepo "m" "2024-01-01T00:00:00" rfl⟩

/-- C3: serialization for hashing is canonical — logically identical
records (same message, timestamp, parent, and file map up to entry
order) hash identically — and re-serializing the record stored by
`commit` (the file map read back in sorted key order) and hashing it
reproduces exactly the hash under which the commit was stored. -/
theorem commit_hash_canonical_roundtrip (hashFn : String → String) (c1 c2 : Commit)
    (hm : c1.message = c2.message) (ht : c1.timestamp = c2.timestamp)
    (hp : c1.parent = c2.parent) (hf : c1.files.Perm c2.files) (hnd : keysNodup c1.files)
    (s : RepoState) (msg ts : String) (hne : read_index s ≠ []) :
    hashFn (serializeCommit c1) = hashFn (serializeCommit c2) ∧
    (∃ rec, alookup (commit hashFn s msg ts).1.commits
        (hashFn (serializeCommit
          { message := msg, timestamp := ts ++ "Z", files := read_index s,
            parent := get_current_commit s })) = some rec ∧
      hashFn (serializeCommit rec) = hashFn (serializeCommit
        { message := msg, timestamp := ts ++ "Z", files := read_index s,
          parent := get_current_commit s })) := by
  refine ⟨congrArg hashFn (serializeCommit_eq_of_perm hm ht hp hf hnd), ?_⟩
  rw [commit_eq hashFn s msg ts hne]
  exact ⟨_, alookup_aupsert_self _ _ _,
    congrArg hashFn (serializeCommit_sortKeys
      { message := msg, timestamp := ts ++ "Z", files := read_index s,
        parent := get_current_commit s })⟩

/-- Witness for C3: two records with the same file map in different
entry order serialize (hence hash) identically, and a concrete commit's
stored record re-hashes to its storage key. -/
theorem commit_hash_canonical_roundtrip_witness :
    ([("b", "2"), ("a", "1")] : List (String × String)).Perm [("a", "1"), ("b", "2")] ∧
    serializeCommit { message := "m", timestamp := "tZ",
                      files := [("b", "2"), ("a", "1")], parent := none } =
      serializeCommit { message := "m", timestamp := "tZ",
                        files := [("a", "1"), ("b", "2")], parent := none } ∧
    (∃ rec, alookup (commit (fun b => b) demoStaged "second" "t2").1.commits
        (serializeCommit
          { message := "second", timestamp := "t2" ++ "Z",
            files := read_index demoStaged,
            parent := get_current_commit demoStaged }) = some rec ∧
      serializeCommit rec = serializeCommit
        { message := "second", timestamp := "t2" ++ "Z",
          files := read_index demoStaged,
          parent := get_current_commit demoStaged }) := by
  have h := commit_hash_canonical_roundtrip (fun b => b)
    { message := "m", timestamp := "tZ",
      files := [("b", "2"), ("a", "1")], parent := none }
    { message := "m", timestamp := "tZ",
      files := [("a", "1"), ("b", "2")], parent := none }
    rfl rfl rfl (by decide) (by decide) demoStaged "second" "t2" (by decide)
  exact ⟨by decide, h.1, h.2⟩

/-- C4: `add` is content-addressed — two working-tree files with the
same bytes are recorded under the same hash, the object store keeps at
most one entry per hash, storing already-present content leaves the
store untouched, and re-adding an already-stored file changes nothing. -/
theorem add_content_addressed (hashFn : String → String) (s : RepoState)
    (f1 f2 c : String)
    (h1 : alookup s.worktree f1 = some c) (h2 : alookup s.worktree f2 = some c)
    (hnd : keysNodup s.objects) :
    alookup (read_index (add hashFn s [f1, f2]).1) f1 = some (hashFn c) ∧
    alookup (read_index (add hashFn s [f1, f2]).1) f2 = some (hashFn c) ∧
    objHas (add hashFn s [f1, f2]).1.objects (hashFn c) ∧
    keysNodup (add hashFn s [f1, f2]).1.objects ∧
    ((alookup s.objects (hashFn c)).isSome = true →
        (add hashFn s [f1, f2]).1.objects = s.objects) ∧
    (add hashFn (add hashFn s [f1, f2]).1 [f1]).1 = (add hashFn s [f1, f2]).1 := by
  have hsha : (alookup (if (alookup s.objects (hashFn c)).isSome then s.objects
      else (hashFn c, c) :: s.objects) (hashFn c)).isSome = true := by
    by_cases hp : (alookup s.objects (hashFn c)).isSome = true
    · rw [if_pos hp]
      exact hp
    · rw [if_neg hp]
      simp [alookup]
  have key : add hashFn s [f1, f2] =
      ({ s with
          indexFile := some (aupsert (aupsert (read_index s) f1 (hashFn c)) f2 (hashFn c)),
          objects := if (alookup s.objects (hashFn c)).isSome then s.objects
                     else (hashFn c, c) :: s.objects },
       ["Added '" ++ f1 ++ "'", "Added '" ++ f2 ++ "'"]) := by
    simp only [add, addLoop, h1, h2]
    rw [if_pos hsha]
  have ha2 : alookup (read_index (add hashFn s [f1, f2]).1) f2 = some (hashFn c) := by
    rw [key]
    exact alookup_aupsert_self _ _ _
  have ha1 : alookup (read_index (add hashFn s [f1, f2]).1) f1 = some (hashFn c) := by
    rw [key]
    show alookup (aupsert (aupsert (read_index s) f1 (hashFn c)) f2 (hashFn c)) f1 =
      some (hashFn c)
    by_cases hf : f2 = f1
    · rw [hf]
      exact alookup_aupsert_self _ _ _
    · rw [alookup_aupsert_ne _ _ _ _ hf]
      exact alookup_aupsert_self _ _ _
  have hc : objHas (add hashFn s [f1, f2]).1.objects (hashFn c) := by
    rw [key]
    exact hsha
  refine ⟨ha1, ha2, hc, ?_, ?_, ?_⟩
  · rw [key]
    show keysNodup (if (alookup s.objects (hashFn c)).isSome then s.objects
      else (hashFn c, c) :: s.objects)
    by_cases hp : (alookup s.objects (hashFn c)).isSome = true
    · rw [if_pos hp]
      exact hnd
    · rw [if_neg hp]
      exact List.Nodup.cons (alookup_none_keys (Option.not_isSome_iff_eq_none.1 hp)) hnd
  · intro hp
    rw [key]
    show (if (alookup s.objects (hashFn c)).isSome then s.objects
      else (hashFn c, c) :: s.objects) = s.objects
    exact if_pos hp
  · exact add_single_stable hashFn _ f1 c (by rw [key]; exact h1) ha1 hc
      (by rw [key]; rfl)

/-- Witness for C4: adding the same content at two paths in a concrete
repository records one hash and keeps one object; re-adding is a
no-op. -/
theorem add_content_addressed_witness :
    alookup demoTwin.worktree "a" = some "same" ∧
    alookup demoTwin.worktree "b" = some "same" ∧
    keysNodup demoTwin.objects ∧
    alookup (read_index (add (fun x => x) demoTwin ["a", "b"]).1) "a" = some "same" ∧
    alookup (read_index (add (fun x => x) demoTwin ["a", "b"]).1) "b" = some "same" ∧
    objHas (add (fun x => x) demoTwin ["a", "b"]).1.objects "same" ∧
    keysNodup (add (fun x => x) demoTwin ["a", "b"]).1.objects ∧
    (add (fun x => x) (add (fun x => x) demoTwin ["a", "b"]).1 ["a"]).1 =
      (add (fun x => x) demoTwin ["a", "b"]).1 := by
  have h := add_content_addressed (fun x => x) demoTwin "a" "b" "same"
    (by decide) (by decide) (by decide)
  exact ⟨by decide, by decide, by decide, h.1, h.2.1, h.2.2.1, h.2.2.2.1, h.2.2.2.2.2⟩

/-- C5: `commit` on a non-empty staging index stores a record whose
parent is the branch's commit before the operation (or `none` for an
empty history), under the hash of its canonical serialization; it
advances the current branch to the new hash, clears the index, and
reports the first 7 characters of the hash with the message. -/
theorem commit_nonempty_advances (hashFn : String → String) (s : RepoState)
    (msg ts : String) (hne : read_index s ≠ []) :
    (∃ rec, alookup (commit hashFn s msg ts).1.commits
        (hashFn (serializeCommit
          { message := msg, timestamp := ts ++ "Z", files := read_index s,
            parent := get_current_commit s })) = some rec ∧
      rec.parent = get_current_commit s ∧ rec.message = msg ∧
      rec.files.Perm (read_index s) ∧
      hashFn (serializeCommit rec) = hashFn (serializeCommit
        { message := msg, timestamp := ts ++ "Z", files := read_index s,
          parent := get_current_commit s })) ∧
    alookup (commit hashFn s msg ts).1.branches (load_head s) =
      some (hashFn (serializeCommit
        { message := msg, timestamp := ts ++ "Z", files := read_index s,
          parent := get_current_commit s })) ∧
    (commit hashFn s msg ts).1.indexFile = some [] ∧
    (commit hashFn s msg ts).2 =
      ["Committed to " ++ load_head s ++ ": " ++
        (hashFn (serializeCommit
          { message := msg, timestamp := ts ++ "Z", files := read_index s,
            parent := get_current_commit s })).take 7 ++ " - " ++ msg] := by
  rw [commit_eq hashFn s msg ts hne]
  refine ⟨⟨_, alookup_aupsert_self _ _ _, rfl, rfl, sortKeys_perm _, ?_⟩,
    alookup_aupsert_self _ _ _, rfl, rfl⟩
  exact congrArg hashFn (serializeCommit_sortKeys
    { message := msg, timestamp := ts ++ "Z", files := read_index s,
      parent := get_current_commit s })

/-- Witness for C5 at a concrete staged repository under the identity
hash: the branch advances to the new commit's hash, the index clears,
and the stored record's parent is the previous branch head `h1`. -/
theorem commit_nonempty_advances_witness :
    read_index demoStaged ≠ [] ∧
    alookup (commit (fun b => b) demoStaged "second" "t2").1.branches
        (load_head demoStaged) =
      some (serializeCommit
        { message := "second", timestamp := "t2" ++ "Z",
          files := read_index demoStaged, parent := get_current_commit demoStaged }) ∧
    (commit (fun b => b) demoStaged "second" "t2").1.indexFile = some [] ∧
    (∃ rec, alookup (commit (fun b => b) demoStaged "second" "t2").1.commits
        (serializeCommit
          { message := "second", timestamp := "t2" ++ "Z",
            files := read_index demoStaged,
            parent := get_current_commit demoStaged }) = some rec ∧
      rec.parent = get_current_commit demoStaged) := by
  have h := commit_nonempty_advances (fun b => b) demoStaged "second" "t2" (by decide)
  obtain ⟨⟨rec, h1, h2, _⟩, h3, h4, _⟩ := h
  exact ⟨by decide, h3, h4, rec, h1, h2⟩

/-- C8: `checkout` of a target that names neither a branch nor a commit
reports the unknown-target error and leaves the state unchanged. -/
theorem checkout_unknown_reports_and_preserves (s : RepoState) (target : String)
    (hb : alookup s.branches target = none) (hc : alookup s.commits target = none) :
    checkout s target = .ok s ["error: unknown branch or commit '" ++ target ++ "'"] := by
  simp [checkout, hb, hc]

/-- Witness for C8 at a concrete repository and an unknown target. -/
theorem checkout_unknown_reports_and_preserves_witness :
    alookup demoRepo.branches "nope" = none ∧
    alookup demoRepo.commits "nope" = none ∧
    checkout demoRepo "nope" =
      .ok demoRepo ["error: unknown branch or commit '" ++ "nope" ++ "'"] :=
  ⟨by decide, by decide,
   checkout_unknown_reports_and_preserves demoRepo "nope" (by decide) (by decide)⟩

/-- A two-commit chain (`h2` on top of `h1`) and a rank certificate for
it, instantiating the walk-termination theorem. -/
def demoChain : List (String × Commit) :=
  [("h2", { message := "second", timestamp := "t2Z",
            files := [("f", "world")], parent := some "h1" }),
   ("h1", { message := "first", timestamp := "t1Z",
            files := [("f", "o1")], parent := none })]

/-- Rank function for `demoChain`: parents rank strictly lower. -/
def demoRank : String → Nat := fun h => if h = "h2" then 1 else 0

/-- C6 (amended): over a commit store whose parent links admit a rank
certificate (in particular, any store in which each commit's parent was
created before it, as `commit` alone produces absent hash collisions),
the `log` walk is finite — some fuel makes the loop stop — it visits the
parent chain in order (newest first), and it stops exactly at a falsy
parent or at a parent hash whose record is missing from the store,
silently in the latter case. -/
theorem log_walk_terminates_acyclic (commits : List (String × Commit))
    (r : String → Nat) (hr : rankOk commits r = true) (start : Option String) :
    ∃ n vs fin, walkFuel commits n start = some (vs, fin) ∧
      walkStopped commits fin ∧ chainOk commits start vs fin := by
  have hb : ∀ h, start = some h → h ≠ "" → (alookup commits h).isSome = true →
      r h < (match start with | none => 1 | some h => r h + 1) := by
    intro h hst _ _
    rw [hst]
    exact Nat.lt_succ_self (r h)
  obtain ⟨vs, fin, hw, hstop, hchain⟩ := walkFuel_total commits r hr _ start hb
  exact ⟨_, vs, fin, hw, hstop, hchain⟩

/-- Witness for C6 (amended): the walk over a concrete two-commit chain
terminates. -/
theorem log_walk_terminates_acyclic_witness :
    rankOk demoChain demoRank = true ∧
    (∃ n vs fin, walkFuel demoChain n (some "h2") = some (vs, fin) ∧
      walkStopped demoChain fin ∧ chainOk demoChain (some "h2") vs fin) :=
  ⟨by decide, log_walk_terminates_acyclic demoChain demoRank (by decide) (some "h2")⟩

/-- C6 counterexample: as literally stated — "for every start hash, the
log walk over the commit graph is finite" — the claim fails on the code:
on a (hand-edited) store whose single commit is its own parent, the
`while` loop of `Repository.log` never reaches either stopping
condition, so no finite fuel completes the walk. -/
theorem log_walk_cycle_not_finite :
    ¬ logTerminates
      [("c0", { message := "m", timestamp := "t", files := [], parent := some "c0" })]
      (some "c0") := by
  rintro ⟨n, res, hres⟩
  have hnone : ∀ k, walkFuel
      [("c0", { message := "m", timestamp := "t", files := [], parent := some "c0" })]
      k (some "c0") = none := by
    intro k
    induction k with
    | zero => simp [walkFuel, alookup]
    | succ k ih => simp [walkFuel, alookup, ih]
  rw [hnone n] at hres
  exact Option.noConfusion hres

/-- C7: `status` reports a working-tree file (outside the repository's
own storage) as modified exactly when its current content hash differs
from the hash the last commit's file map records for that path — a path
absent from that map included; with no current commit the baseline is
empty and every such file is reported; an unchanged file is never
reported. -/
theorem status_modified_iff (hashFn : String → String) (s : RepoState)
    (lf : List (String × String)) (hlf : last_files_of s = some lf)
    (f c : String) (hw : (f, c) ∈ s.worktree)
    (hnm : f.startsWith ".myvcs" = false) (hnd : keysNodup s.worktree) :
    (f ∈ modifiedFiles hashFn s.worktree lf ↔ some (hashFn c) ≠ alookup lf f) ∧
    (get_current_commit s = none → lf = []) ∧
    (lf = [] → f ∈ modifiedFiles hashFn s.worktree lf) ∧
    status hashFn s = .ok s
      (("Staged files:" :: ((read_index s).map (fun e => "  " ++ e.1) ++ [""])) ++
        statusChanges hashFn s.worktree lf) := by
  have hiff : f ∈ modifiedFiles hashFn s.worktree lf ↔ some (hashFn c) ≠ alookup lf f := by
    constructor
    · intro hmem
      obtain ⟨fc, hfc, hfst⟩ := List.mem_map.1 hmem
      obtain ⟨hfcw, hpred⟩ := List.mem_filter.1 hfc
      obtain ⟨k, v⟩ := fc
      cases hfst
      have hvc : v = c := keysNodup_unique hnd hfcw hw
      rw [Bool.and_eq_true] at hpred
      rw [← hvc]
      exact of_decide_eq_true hpred.2
    · intro hne
      refine List.mem_map.2 ⟨(f, c), List.mem_filter.2 ⟨hw, ?_⟩, rfl⟩
      rw [Bool.and_eq_true]
      exact ⟨by rw [hnm]; rfl, decide_eq_true hne⟩
  refine ⟨hiff, ?_, ?_, ?_⟩
  · intro hcur
    unfold last_files_of at hlf
    rw [hcur] at hlf
    exact (Option.some.inj hlf).symm
  · intro h0
    apply hiff.2
    rw [h0]
    simp [alookup]
  · simp [status, hlf]

/-- Witness for C7 at a concrete repository: file `f` currently hashes
to `hello` while the last commit recorded `o1`, so it is reported
modified, and `status` succeeds with that report. -/
theorem status_modified_iff_witness :
    last_files_of demoRepo = some [("f", "o1")] ∧
    ("f", "hello") ∈ demoRepo.worktree ∧
    ("f" ∈ modifiedFiles (fun b => b) demoRepo.worktree [("f", "o1")] ↔
      some "hello" ≠ alookup [("f", "o1")] "f") ∧
    status (fun b => b) demoRepo = .ok demoRepo
      (("Staged files:" :: ((read_index demoRepo).map (fun e => "  " ++ e.1) ++ [""])) ++
        statusChanges (fun b => b) demoRepo.worktree [("f", "o1")]) := by
  have h := status_modified_iff (fun b => b) demoRepo [("f", "o1")] (by decide)
    "f" "hello" (by decide) (by decide) (by decide)
  exact ⟨by decide, by decide, h.1, h.2.2.2⟩

/-- C9: `branch(name)` reports and creates nothing when the name exists
or when the current branch has no (truthy) commit; otherwise it writes
the new branch pointer at the current commit and reports it with the
7-character short identifier. -/
theorem branch_create_spec (s : RepoState) (name : String) :
    ((alookup s.branches name).isSome = true →
        branch s name = (s, ["Branch '" ++ name ++ "' already exists."])) ∧
    (alookup s.branches name = none → truthy (get_current_commit s) = false →
        branch s name = (s, ["No commits to branch from."])) ∧
    (∀ h, alookup s.branches name = none → get_current_commit s = some h → h ≠ "" →
        branch s name =
          ({ s with branches := aupsert s.branches name h },
           ["Created branch '" ++ name ++ "' at " ++ h.take 7])) := by
  refine ⟨?_, ?_, ?_⟩
  · intro hex
    rcases Option.isSome_iff_exists.1 hex with ⟨h, hh⟩
    simp [branch, hh]
  · intro hb ht
    cases hcur : get_current_commit s with
    | none => simp [branch, hb, hcur]
    | some h =>
      rw [hcur] at ht
      simp only [truthy, decide_eq_false_iff_not, not_not] at ht
      simp [branch, hb, hcur, ht]
  · intro h hb hcur hne
    simp [branch, hb, hcur, hne]

/-- Witness for C9: all three cases of `branch` at concrete
repositories — existing name, empty history, and successful creation. -/
theorem branch_create_spec_witness :
    branch demoRepo "master" =
      (demoRepo, ["Branch '" ++ "master" ++ "' already exists."]) ∧
    branch demoEmpty "x" = (demoEmpty, ["No commits to branch from."]) ∧
    branch demoRepo "dev" =
      ({ demoRepo with branches := aupsert demoRepo.branches "dev" "h1" },
       ["Created branch '" ++ "dev" ++ "' at " ++ "h1".take 7]) :=
  ⟨(branch_create_spec demoRepo "master").1 (by decide),
   (branch_create_spec demoEmpty "x").2.1 (by decide) (by decide),
   (branch_create_spec demoRepo "dev").2.2 "h1" (by decide) (by decide) (by decide)⟩

/-- C10: the object-coverage invariant — every hash recorded in the
staging index, and every hash in any committed file map, has a stored
object — is preserved by `add` and by `commit`, and under it the restore
loop of `checkout` never attempts to copy a missing object. -/
theorem store_covers_recorded_hashes (hashFn : String → String) (s : RepoState) :
    (∀ files, Inv s → Inv (add hashFn s files).1) ∧
    (∀ msg ts, Inv s → Inv (commit hashFn s msg ts).1) ∧
    (Inv s → ∀ h c, alookup s.commits h = some c →
        ∀ wt, (restoreFiles s.objects c.files wt).2 = true) := by
  refine ⟨?_, ?_, ?_⟩
  · rintro files ⟨hidx, hcom⟩
    obtain ⟨hcov, hmono⟩ :=
      addLoop_inv hashFn s.worktree files (read_index s) s.objects hidx
    exact ⟨hcov, fun e he e' he' => hmono e'.2 (hcom e he e' he')⟩
  · rintro msg ts ⟨hidx, hcom⟩
    by_cases hemp : read_index s = []
    · simp only [commit]
      rw [if_pos hemp]
      exact ⟨hidx, hcom⟩
    · rw [commit_eq hashFn s msg ts hemp]
      constructor
      · intro e he
        exact absurd he (List.not_mem_nil e)
      · intro e he
        rcases mem_aupsert he with he' | he'
        · rw [he']
          intro e' he'
          exact hidx e' ((sortKeys_perm (read_index s)).mem_iff.1 he')
        · exact hcom e he'
  · rintro ⟨hidx, hcom⟩ h c hc wt
    exact restoreFiles_ok s.objects c.files wt (hcom (h, c) (alookup_mem hc))

/-- Witness for C10 at a concrete staged repository under the identity
hash: the invariant holds, survives an `add` and a `commit`, and the
restore of the stored commit's file map succeeds. -/
theorem store_covers_recorded_hashes_witness :
    Inv demoStaged ∧
    Inv (add (fun b => b) demoStaged ["f"]).1 ∧
    Inv (commit (fun b => b) demoStaged "second" "t2").1 ∧
    alookup demoStaged.commits "h1" =
      some { message := "first", timestamp := "t1Z",
             files := [("f", "o1")], parent := none } ∧
    (restoreFiles demoStaged.objects [("f", "o1")] demoStaged.worktree).2 = true := by
  have h := store_covers_recorded_hashes (fun b => b) demoStaged
  exact ⟨by decide, h.1 ["f"] (by decide), h.2.1 "second" "t2" (by decide), by decide,
    h.2.2 (by decide) "h1"
      { message := "first", timestamp := "t1Z", files := [("f", "o1")], parent := none }
      (by decide) demoStaged.worktree⟩

end Myvcs
